import Mathlib

/-!
Verification of the StateTransformer context-assembly and autoregressive
key-point generation controller.

The development shallowly embeds the sequence-layout code of
`transformer4planning/models/encoder/nuplan_raster_encoder.py` and the
key-point generation loop of `transformer4planning/models/model.py`
(`TrajectoryGPT.generate`).  Embedding vectors are abstracted to an
arbitrary type `E`; a 1-D tensor of embeddings is a length together with a
position-indexed valuation, and the imperative strided/sliced tensor
assignments of the source are modelled by the corresponding functional
updates.
-/

namespace STR

/-- One batch row of an embedding tensor: a length together with a
position-indexed valuation (positions `≥ len` are irrelevant). -/
structure Tens (E : Type) where
  len : Nat
  val : Nat → E

namespace Tens

/-- `torch.zeros((n, d_embed))` for one batch row. -/
def zeros {E : Type} (zero : E) (n : Nat) : Tens E := ⟨n, fun _ => zero⟩

/-- Python strided assignment `t[start::stride] = vals` where `vals` has
`count` entries (the number of selected positions). -/
def stridedWrite {E : Type} (t : Tens E) (start stride count : Nat) (vals : Nat → E) : Tens E :=
  ⟨t.len, fun i =>
    if start ≤ i ∧ (i - start) % stride = 0 ∧ (i - start) / stride < count then
      vals ((i - start) / stride)
    else t.val i⟩

/-- Python slice assignment `t[start:start+count] = vals`. -/
def sliceWrite {E : Type} (t : Tens E) (start count : Nat) (vals : Nat → E) : Tens E :=
  ⟨t.len, fun i =>
    if start ≤ i ∧ i < start + count then vals (i - start) else t.val i⟩

/-- `torch.cat([t, vals], dim=1)` where `vals` has `count` entries. -/
def append {E : Type} (t : Tens E) (count : Nat) (vals : Nat → E) : Tens E :=
  ⟨t.len + count, fun i =>
    if t.len ≤ i ∧ i < t.len + count then vals (i - t.len) else t.val i⟩

theorem len_append {E : Type} (t : Tens E) (count : Nat) (vals : Nat → E) :
    (t.append count vals).len = t.len + count := rfl

theorem val_append_of_lt {E : Type} (t : Tens E) (count : Nat) (vals : Nat → E)
    (i : Nat) (h : i < t.len) : (t.append count vals).val i = t.val i :=
  if_neg (by omega)

theorem val_append_of_le {E : Type} (t : Tens E) (count : Nat) (vals : Nat → E)
    (i : Nat) (h1 : t.len ≤ i) (h2 : i < t.len + count) :
    (t.append count vals).val i = vals (i - t.len) :=
  if_pos ⟨h1, h2⟩

end Tens

/-!
## Flat-interleave layout (non-patch raster backbones)

From `NuplanRasterizeEncoder.forward`, ResNet branch (lines 258-273):

    context_length = action_seq_length * 2
    input_embeds = torch.zeros((batch_size, context_length, n_embed), ...)
    input_embeds[:, ::2, :] = state_embeds
    input_embeds[:, 1::2, :] = action_embeds
-/

/-- `context_length = action_seq_length * 2` reported by the flat branch. -/
def flatContextLength (T : Nat) : Nat := T * 2

/-- The flat-interleave block: zero-initialised buffer of length `2T`, the
`T` state embeddings written at stride 2 from index 0, the `T` action
embeddings written at stride 2 from index 1. -/
def flatInterleave {E : Type} (zero : E) (state action : Nat → E) (T : Nat) : Tens E :=
  ((Tens.zeros zero (flatContextLength T)).stridedWrite 0 2 T state).stridedWrite 1 2 T action

/-- C2: for the flat-interleave layout with `T ≥ 1` context timesteps, the
builder produces a block of length exactly `2T` in which every even
absolute index holds a state embedding and every odd absolute index holds
an action embedding, and the reported `context_length` equals `2T`. -/
theorem flat_interleave_layout {E : Type} (zero : E) (state action : Nat → E)
    (T : Nat) (hT : 1 ≤ T) :
    (flatInterleave zero state action T).len = 2 * T ∧
    flatContextLength T = 2 * T ∧
    (∀ i, i < 2 * T →
      (flatInterleave zero state action T).val i =
        if i % 2 = 0 then state (i / 2) else action (i / 2)) := by
  refine ⟨?_, by simp [flatContextLength]; omega, ?_⟩
  · simp [flatInterleave, Tens.stridedWrite, Tens.zeros, flatContextLength]
    omega
  · intro i hi
    by_cases hpar : i % 2 = 0
    · have h1 : ¬ (1 ≤ i ∧ (i - 1) % 2 = 0 ∧ (i - 1) / 2 < T) := by omega
      have h2 : 0 ≤ i ∧ (i - 0) % 2 = 0 ∧ (i - 0) / 2 < T := by omega
      simp only [flatInterleave, Tens.stridedWrite, Tens.zeros, if_neg h1, if_pos h2,
        if_pos hpar]
      congr 1 <;> omega
    · have h1 : 1 ≤ i ∧ (i - 1) % 2 = 0 ∧ (i - 1) / 2 < T := by omega
      simp only [flatInterleave, Tens.stridedWrite, Tens.zeros, if_pos h1, if_neg hpar]
      congr 1 <;> omega

/-- Witness for `flat_interleave_layout` at `T = 1` with concrete rational
embeddings. -/
theorem flat_interleave_layout_witness :
    1 ≤ 1 ∧
    ((flatInterleave (0 : ℚ) (fun j => (j : ℚ) + 10) (fun j => (j : ℚ) + 20) 1).len = 2 * 1 ∧
    flatContextLength 1 = 2 * 1 ∧
    (∀ i, i < 2 * 1 →
      (flatInterleave (0 : ℚ) (fun j => (j : ℚ) + 10) (fun j => (j : ℚ) + 20) 1).val i =
        if i % 2 = 0 then ((i / 2 : Nat) : ℚ) + 10 else ((i / 2 : Nat) : ℚ) + 20)) :=
  ⟨le_refl 1,
   flat_interleave_layout (0 : ℚ) (fun j => (j : ℚ) + 10) (fun j => (j : ℚ) + 20) 1 (le_refl 1)⟩

/-!
## Patch-interleave layout (ViT raster backbone)

From `NuplanRasterizeEncoder.forward`, ViT branch (lines 239-257):

    context_length = action_seq_length + action_seq_length * sequence_length
    input_embeds = torch.zeros((batch_size, context_length, n_embed), ...)
    for j in range(action_seq_length):
        input_embeds[:, j * (1 + sequence_length): j * (1 + sequence_length) + sequence_length, :] = state_embeds[:, j, :, :]
    input_embeds[:, sequence_length::1 + sequence_length, :] = action_embeds
-/

/-- `context_length = action_seq_length + action_seq_length * sequence_length`
reported by the ViT branch (`T` timesteps, `S` sub-tokens per timestep). -/
def vitContextLength (T S : Nat) : Nat := T + T * S

/-- The patch-interleave block: zero buffer of length `T + T*S`, the `S`
sub-tokens of timestep `j` written at `[j*(1+S), j*(1+S)+S)` for each
`j < T`, and the `T` action embeddings written at stride `1+S` from
index `S`. -/
def vitInterleave {E : Type} (zero : E) (state : Nat → Nat → E) (action : Nat → E)
    (T S : Nat) : Tens E :=
  ((List.range T).foldl (fun t j => t.sliceWrite (j * (1 + S)) S (state j))
      (Tens.zeros zero (vitContextLength T S))).stridedWrite S (1 + S) T action

theorem vitStateFold_len {E : Type} (state : Nat → Nat → E) (S : Nat) (t : Tens E) (l : List Nat) :
    (l.foldl (fun t j => Tens.sliceWrite t (j * (1 + S)) S (state j)) t).len = t.len := by
  induction l generalizing t with
  | nil => rfl
  | cons a l ih => simpa [Tens.sliceWrite] using ih _

theorem vitStateFold_val {E : Type} (state : Nat → Nat → E) (S : Nat) (t : Tens E)
    (T : Nat) (j s : Nat) (hj : j < T) (hs : s < S) :
    ((List.range T).foldl (fun t j => Tens.sliceWrite t (j * (1 + S)) S (state j)) t).val
      (j * (1 + S) + s) = state j s := by
  induction T generalizing t with
  | zero => omega
  | succ T ih =>
    rw [List.range_succ, List.foldl_append]
    rcases Nat.lt_or_ge j T with hjT | hjT
    · have hlt : j * (1 + S) + s < T * (1 + S) := by
        calc j * (1 + S) + s < j * (1 + S) + (1 + S) := by omega
        _ = (j + 1) * (1 + S) := by ring
        _ ≤ T * (1 + S) := Nat.mul_le_mul_right _ (by omega)
      have hcond : ¬ (T * (1 + S) ≤ j * (1 + S) + s ∧ j * (1 + S) + s < T * (1 + S) + S) := by
        omega
      simp only [List.foldl_cons, List.foldl_nil, Tens.sliceWrite, if_neg hcond]
      exact ih t hjT
    · have hj' : j = T := by omega
      subst hj'
      have hcond : j * (1 + S) ≤ j * (1 + S) + s ∧ j * (1 + S) + s < j * (1 + S) + S := by
        omega
      simp only [List.foldl_cons, List.foldl_nil, Tens.sliceWrite, if_pos hcond]
      congr 1
      omega

/-- C3: for the patch-interleave layout with `T` context timesteps and `S`
sub-tokens per timestep, for `j < T` the slots `[j*(1+S), j*(1+S)+S)` hold
the `j`-th state embedding's `S` sub-tokens, slot `j*(1+S)+S` holds the
`j`-th action embedding, and the reported `context_length` is `T + T*S`. -/
theorem vit_interleave_layout {E : Type} (zero : E) (state : Nat → Nat → E)
    (action : Nat → E) (T S : Nat) (j s : Nat) (hj : j < T) (hs : s < S) :
    (vitInterleave zero state action T S).len = vitContextLength T S ∧
    vitContextLength T S = T + T * S ∧
    (vitInterleave zero state action T S).val (j * (1 + S) + s) = state j s ∧
    (vitInterleave zero state action T S).val (j * (1 + S) + S) = action j := by
  refine ⟨?_, rfl, ?_, ?_⟩
  · simp only [vitInterleave, Tens.stridedWrite]
    exact vitStateFold_len state S _ _
  · -- the final strided action write does not hit a sub-token position
    have hski : ¬ (S ≤ j * (1 + S) + s ∧ (j * (1 + S) + s - S) % (1 + S) = 0 ∧
        (j * (1 + S) + s - S) / (1 + S) < T) := by
      rintro ⟨hle, hmod, -⟩
      rcases Nat.eq_zero_or_pos j with hj0 | hjpos
      · subst hj0; omega
      · obtain ⟨jj, rfl⟩ : ∃ jj, j = jj + 1 := ⟨j - 1, by omega⟩
        have hexp : (jj + 1) * (1 + S) = jj * (1 + S) + (1 + S) := by ring
        have hsub : (jj + 1) * (1 + S) + s - S = (1 + s) + jj * (1 + S) := by omega
        rw [hsub, Nat.add_mul_mod_self_right, Nat.mod_eq_of_lt (by omega)] at hmod
        omega
    simp only [vitInterleave, Tens.stridedWrite, if_neg hski]
    exact vitStateFold_val state S _ T j s hj hs
  · have hcond : S ≤ j * (1 + S) + S ∧ (j * (1 + S) + S - S) % (1 + S) = 0 ∧
        (j * (1 + S) + S - S) / (1 + S) < T := by
      refine ⟨by omega, ?_, ?_⟩
      · simp [Nat.add_sub_cancel, Nat.mul_mod_left]
      · simp only [Nat.add_sub_cancel]
        rw [Nat.mul_div_cancel _ (by omega)]
        exact hj
    simp only [vitInterleave, Tens.stridedWrite, if_pos hcond]
    congr 1
    simp only [Nat.add_sub_cancel]
    exact Nat.mul_div_cancel _ (by omega)

/-- Witness for `vit_interleave_layout` at `T = 2`, `S = 3`, `j = 1`,
`s = 2`, with concrete rational embeddings. -/
theorem vit_interleave_layout_witness :
    1 < 2 ∧ 2 < 3 ∧
    ((vitInterleave (0 : ℚ) (fun j s => (j : ℚ) * 100 + s) (fun j => (j : ℚ) + 50) 2 3).len =
      vitContextLength 2 3 ∧
    vitContextLength 2 3 = 2 + 2 * 3 ∧
    (vitInterleave (0 : ℚ) (fun j s => (j : ℚ) * 100 + s) (fun j => (j : ℚ) + 50) 2 3).val
      (1 * (1 + 3) + 2) = (1 : ℚ) * 100 + 2 ∧
    (vitInterleave (0 : ℚ) (fun j s => (j : ℚ) * 100 + s) (fun j => (j : ℚ) + 50) 2 3).val
      (1 * (1 + 3) + 3) = (1 : ℚ) + 50) :=
  ⟨by omega, by omega,
   vit_interleave_layout (0 : ℚ) (fun j s => (j : ℚ) * 100 + s) (fun j => (j : ℚ) + 50)
     2 3 1 2 (by omega) (by omega)⟩

/-!
## Encoder forward assembly

From `NuplanRasterizeEncoder.forward` (lines 196-338): after the
interleaved block (and optional camera tokens, already accounted inside
the reported `context_length`), the forward pass appends

  * the proposal-cluster segment (`use_proposal` candidate embeddings plus
    one ground-truth-class embedding) whenever `if self.use_proposal:`
    holds — the branch does not consult `is_training`;
  * the key-point segment (one embedding per selected key point) whenever
    `use_key_points != 'no'`;
  * `pred_length` zero placeholder tokens.

`trajectory_label is None` is replaced by `torch.zeros((B, 80, 4))`
(lines 221-222) and `pred_length` is read off its second dimension.
-/

/-- The recognised `use_key_points` configuration values
(`no`, `specified`, `specified_backward`, `even_interval`). -/
inductive UseKeyPoints where
  | no
  | specified
  | specifiedBackward
  | evenInterval
deriving DecidableEq

/-- `'specified' in self.use_key_points`. -/
def UseKeyPoints.containsSpecified : UseKeyPoints → Bool
  | .specified => true
  | .specifiedBackward => true
  | _ => false

/-- A 4-component trajectory point (x, y, padding, yaw). -/
abbrev Pt4 : Type := ℚ × ℚ × ℚ × ℚ

/-- `trajectory_label if trajectory_label is not None else torch.zeros((B, 80, 4))`
for one batch row. -/
def resolveTrajLabel (lbl : Option (List Pt4)) : List Pt4 :=
  match lbl with
  | none => List.replicate 80 ((0 : ℚ), 0, 0, 0)
  | some l => l

/-- `_, pred_length = trajectory_label.shape[:2]`. -/
def predLengthOf (lbl : Option (List Pt4)) : Nat := (resolveTrajLabel lbl).length

/-- `get_proposal_cluster_embedding` sequence effect: append the
`nCandi` candidate-trajectory embeddings, then the one ground-truth class
embedding (lines 147-194). -/
def proposalClusterAppend {E : Type} (t : Tens E) (nCandi : Nat)
    (candEmbed : Nat → E) (clsEmbed : E) : Tens E :=
  (t.append nCandi candEmbed).append 1 (fun _ => clsEmbed)

/-- The segment-assembly part of `NuplanRasterizeEncoder.forward`
(lines 297-338), starting from the already interleaved context block
`ctx`.  `isTraining` is received by the forward pass but the
proposal-segment branch is gated on `useProposal` only. -/
def encForward {E : Type} (ctx : Tens E) (isTraining : Bool) (useProposal : Nat)
    (candEmbed : Nat → E) (clsEmbed : E)
    (ukp : UseKeyPoints) (kpEmbed : Nat → E) (kpCount : Nat)
    (predLength : Nat) (zero : E) : Tens E :=
  let t1 := if useProposal ≠ 0 then proposalClusterAppend ctx useProposal candEmbed clsEmbed
            else ctx
  let t2 := if ukp = UseKeyPoints.no then t1 else t1.append kpCount kpEmbed
  t2.append predLength (fun _ => zero)

/-- Length of the optional key-point segment. -/
def kpSegLen (ukp : UseKeyPoints) (kpCount : Nat) : Nat :=
  if ukp = UseKeyPoints.no then 0 else kpCount

/-- C5 counterexample: running the encoder assembly for inference
(`is_training = false`) with `use_proposal = 2` still appends the
proposal-cluster segment: with a context block of length 4, no key points
and 2 placeholder tokens the output has length `4 + (2 + 1) + 2 = 9`
(not the `4 + 2 = 6` the claim would give), candidate embeddings sit at
indices 4 and 5 and the ground-truth-class embedding at index 6. -/
theorem proposal_segment_at_inference_counterexample :
    (encForward (Tens.zeros (0 : ℚ) 4) false 2 (fun i => (i : ℚ) + 100) 200
      UseKeyPoints.no (fun _ => 0) 0 2 0).len = 9 ∧
    (encForward (Tens.zeros (0 : ℚ) 4) false 2 (fun i => (i : ℚ) + 100) 200
      UseKeyPoints.no (fun _ => 0) 0 2 0).len ≠ 4 + 2 ∧
    (encForward (Tens.zeros (0 : ℚ) 4) false 2 (fun i => (i : ℚ) + 100) 200
      UseKeyPoints.no (fun _ => 0) 0 2 0).val 4 = 100 ∧
    (encForward (Tens.zeros (0 : ℚ) 4) false 2 (fun i => (i : ℚ) + 100) 200
      UseKeyPoints.no (fun _ => 0) 0 2 0).val 6 = 200 := by
  refine ⟨rfl, by decide, ?_, ?_⟩ <;>
    norm_num [encForward, proposalClusterAppend, Tens.append, Tens.zeros]

/-- C5 amended: the proposal-cluster segment (`useProposal` candidate
embeddings followed by one ground-truth-class embedding) is appended right
after the context block whenever `use_proposal` is non-zero, during
training and inference alike; the assembly does not depend on
`is_training` at all. -/
theorem proposal_segment_iff_use_proposal {E : Type} (ctx : Tens E)
    (isTraining : Bool) (useProposal : Nat) (candEmbed : Nat → E) (clsEmbed : E)
    (ukp : UseKeyPoints) (kpEmbed : Nat → E) (kpCount : Nat)
    (predLength : Nat) (zero : E) (hup : useProposal ≠ 0) :
    (encForward ctx isTraining useProposal candEmbed clsEmbed ukp kpEmbed kpCount
        predLength zero).len =
      ctx.len + (useProposal + 1) + kpSegLen ukp kpCount + predLength ∧
    (∀ c, c < useProposal →
      (encForward ctx isTraining useProposal candEmbed clsEmbed ukp kpEmbed kpCount
          predLength zero).val (ctx.len + c) = candEmbed c) ∧
    (encForward ctx isTraining useProposal candEmbed clsEmbed ukp kpEmbed kpCount
        predLength zero).val (ctx.len + useProposal) = clsEmbed ∧
    (encForward ctx true useProposal candEmbed clsEmbed ukp kpEmbed kpCount
        predLength zero) =
      (encForward ctx false useProposal candEmbed clsEmbed ukp kpEmbed kpCount
        predLength zero) := by
  have hcls : ((ctx.append useProposal candEmbed).append 1 fun _ => clsEmbed).len =
      ctx.len + useProposal + 1 := rfl
  refine ⟨?_, ?_, ?_, rfl⟩
  · simp only [encForward, proposalClusterAppend, Tens.append, if_pos hup, kpSegLen]
    by_cases hk : ukp = UseKeyPoints.no <;> simp [hk] <;> omega
  · intro c hc
    have hv : ((ctx.append useProposal candEmbed).append 1 fun _ => clsEmbed).val (ctx.len + c)
        = candEmbed c := by
      rw [Tens.val_append_of_lt _ 1 _ _ (by simp [Tens.len_append]; omega),
          Tens.val_append_of_le _ _ _ _ (by omega) (by simp [Tens.len_append]; omega)]
      congr 1
      omega
    simp only [encForward, proposalClusterAppend, if_pos hup]
    by_cases hk : ukp = UseKeyPoints.no
    · rw [if_pos hk, Tens.val_append_of_lt _ _ _ _ (by rw [hcls]; omega)]
      exact hv
    · rw [if_neg hk,
          Tens.val_append_of_lt _ predLength _ _ (by simp [Tens.len_append, hcls]; omega),
          Tens.val_append_of_lt _ kpCount _ _ (by rw [hcls]; omega)]
      exact hv
  · have hv : ((ctx.append useProposal candEmbed).append 1 fun _ => clsEmbed).val
        (ctx.len + useProposal) = clsEmbed := by
      rw [Tens.val_append_of_le _ 1 _ _ (by simp [Tens.len_append]) (by simp [Tens.len_append])]
    simp only [encForward, proposalClusterAppend, if_pos hup]
    by_cases hk : ukp = UseKeyPoints.no
    · rw [if_pos hk, Tens.val_append_of_lt _ _ _ _ (by rw [hcls]; omega)]
      exact hv
    · rw [if_neg hk,
          Tens.val_append_of_lt _ predLength _ _ (by simp [Tens.len_append, hcls]; omega),
          Tens.val_append_of_lt _ kpCount _ _ (by rw [hcls]; omega)]
      exact hv

/-- Witness for `proposal_segment_iff_use_proposal` with a concrete
length-4 context block, `use_proposal = 2`, no key points and 2
placeholder tokens, at inference. -/
theorem proposal_segment_iff_use_proposal_witness :
    (2 : Nat) ≠ 0 ∧
    ((encForward (Tens.zeros (0 : ℚ) 4) false 2 (fun i => (i : ℚ) + 100) 200
        UseKeyPoints.no (fun _ => 0) 0 2 0).len =
      (Tens.zeros (0 : ℚ) 4).len + (2 + 1) + kpSegLen UseKeyPoints.no 0 + 2 ∧
    (∀ c, c < 2 →
      (encForward (Tens.zeros (0 : ℚ) 4) false 2 (fun i => (i : ℚ) + 100) 200
          UseKeyPoints.no (fun _ => 0) 0 2 0).val ((Tens.zeros (0 : ℚ) 4).len + c) =
        (c : ℚ) + 100) ∧
    (encForward (Tens.zeros (0 : ℚ) 4) false 2 (fun i => (i : ℚ) + 100) 200
        UseKeyPoints.no (fun _ => 0) 0 2 0).val ((Tens.zeros (0 : ℚ) 4).len + 2) = 200 ∧
    (encForward (Tens.zeros (0 : ℚ) 4) true 2 (fun i => (i : ℚ) + 100) 200
        UseKeyPoints.no (fun _ => 0) 0 2 0) =
      (encForward (Tens.zeros (0 : ℚ) 4) false 2 (fun i => (i : ℚ) + 100) 200
        UseKeyPoints.no (fun _ => 0) 0 2 0)) :=
  ⟨by decide,
   proposal_segment_iff_use_proposal (Tens.zeros (0 : ℚ) 4) false 2
     (fun i => (i : ℚ) + 100) 200 UseKeyPoints.no (fun _ => 0) 0 2 0 (by decide)⟩

/-- C10: a missing (`None`) `trajectory_label` is replaced by an all-zeros
`(B, 80, 4)` tensor, `pred_length` therefore defaults to 80, and the
trailing placeholder region appended by the assembly has length 80 (and is
all zeros). -/
theorem missing_label_defaults {E : Type} (ctx : Tens E) (zero : E)
    (isTraining : Bool) (candEmbed : Nat → E) (clsEmbed : E) (kpEmbed : Nat → E) :
    resolveTrajLabel none = List.replicate 80 ((0 : ℚ), 0, 0, 0) ∧
    predLengthOf none = 80 ∧
    (encForward ctx isTraining 0 candEmbed clsEmbed UseKeyPoints.no kpEmbed 0
        (predLengthOf none) zero).len = ctx.len + 80 ∧
    (∀ i, i < 80 →
      (encForward ctx isTraining 0 candEmbed clsEmbed UseKeyPoints.no kpEmbed 0
          (predLengthOf none) zero).val (ctx.len + i) = zero) := by
  refine ⟨rfl, rfl, rfl, ?_⟩
  intro i hi
  have hred : encForward ctx isTraining 0 candEmbed clsEmbed UseKeyPoints.no kpEmbed 0
      (predLengthOf none) zero = ctx.append (predLengthOf none) (fun _ => zero) := by
    simp [encForward]
  rw [hred, Tens.val_append_of_le _ _ _ _ (by omega)
      (by simp only [predLengthOf, resolveTrajLabel, List.length_replicate]; omega)]

/-- Witness for `missing_label_defaults` at a concrete length-3 rational
context block. -/
theorem missing_label_defaults_witness :
    resolveTrajLabel none = List.replicate 80 ((0 : ℚ), 0, 0, 0) ∧
    predLengthOf none = 80 ∧
    (encForward (Tens.zeros (7 : ℚ) 3) false 0 (fun _ => 0) 0 UseKeyPoints.no (fun _ => 0) 0
        (predLengthOf none) (7 : ℚ)).len = (Tens.zeros (7 : ℚ) 3).len + 80 ∧
    (∀ i, i < 80 →
      (encForward (Tens.zeros (7 : ℚ) 3) false 0 (fun _ => 0) 0 UseKeyPoints.no (fun _ => 0) 0
          (predLengthOf none) (7 : ℚ)).val ((Tens.zeros (7 : ℚ) 3).len + i) = 7) :=
  missing_label_defaults (Tens.zeros (7 : ℚ) 3) (7 : ℚ) false (fun _ => 0) 0 (fun _ => 0)

/-!
## Key-point slot start used by the generation loop

From `TrajectoryGPT.generate` (model.py lines 257-260):

    additional_token_num = 0
    additional_token_num += self.model_args.max_token_len if self.model_args.token_scenario_tag else 0
    kp_start_index = additional_token_num + context_length * 2

while the encoder lays the key-point segment immediately after the
reported `context_length` plus the optional proposal segment.
-/

/-- `kp_start_index = additional_token_num + context_length * 2`
(model.py line 260). -/
def kpStartIndex (additionalTokenNum contextLength : Nat) : Nat :=
  additionalTokenNum + contextLength * 2

/-- Index of the first key-point slot in the sequence assembled by
`NuplanRasterizeEncoder.forward`: right after the context block and the
optional proposal segment. -/
def encKpSlotStart (contextLength proposalSegLen : Nat) : Nat :=
  contextLength + proposalSegLen

/-- C4 (code bug): at `T = 1` flat context timestep with no scenario-tag,
camera or proposal tokens and `K = 1` key point, the encoder reports
`context_length = 2` and places the key-point slot at absolute index 2
(its embedding is the value at index 2 of the assembled sequence), but the
generation loop computes `kp_start_index = 0 + 2 * 2 = 4`; the first slot
index used by the fill loop is neither equal to the context length nor
below `context_length + num_key_points`. -/
theorem kp_slot_start_mismatch :
    kpStartIndex 0 (flatContextLength 1) = 4 ∧
    encKpSlotStart (flatContextLength 1) 0 = 2 ∧
    (encForward (flatInterleave (0 : ℤ) (fun _ => 1) (fun _ => 2) 1) false 0 (fun _ => 0) 0
        UseKeyPoints.specified (fun i => (i : ℤ) + 300) 1 3 0).val
      (encKpSlotStart (flatContextLength 1) 0) = 300 ∧
    kpStartIndex 0 (flatContextLength 1) ≠ encKpSlotStart (flatContextLength 1) 0 ∧
    ¬ (kpStartIndex 0 (flatContextLength 1) < flatContextLength 1 + 1) := by
  refine ⟨rfl, rfl, by decide, by decide, by decide⟩

/-!
## Key-point slot selection guard in `TrajectoryGPT.generate`

From model.py lines 262-272:

    if self.use_key_points != 'no':
        assert selected_indices is not None and len(selected_indices) > 0, ...
        if 'specified' in self.use_key_points:
            future_key_points = trajectory_label_dummy[:, selected_indices, :]
        else:
            ar_future_interval = 20
            future_key_points = trajectory_label_dummy[:, ar_future_interval - 1::ar_future_interval, :]
        assert future_key_points.shape[1] > 0, 'future points not enough to sample'

A python strided read `t[19::20]` over `pred_length` rows selects
`pred_length / 20` rows (integer division).
-/

/-- Number of key points sampled by the fixed-stride rule
`trajectory_label_dummy[:, 19::20, :]` over a future of length
`predLength`. -/
def strideSampleCount (predLength : Nat) : Nat := predLength / 20

/-- The guarded key-point setup of `TrajectoryGPT.generate`: returns the
number of key-point slots `K`, or the message of the failing `assert`. -/
def generateKeyPointCheck (ukp : UseKeyPoints) (selectedIndices : Option (List Nat))
    (predLength : Nat) : Except String Nat :=
  if ukp = UseKeyPoints.no then Except.ok 0
  else
    match selectedIndices with
    | none => Except.error "selected_indices is None or empty"
    | some si =>
      if si.length = 0 then Except.error "selected_indices is None or empty"
      else
        let kpNum := if ukp.containsSpecified then si.length else strideSampleCount predLength
        if kpNum = 0 then Except.error "future points not enough to sample"
        else Except.ok kpNum

/-- C9: when `use_key_points` is enabled and the slot-selection rule yields
zero slots (missing or empty `selected_indices`, or zero stride-sampled
future key points), the generation entry fails with an assertion error
instead of proceeding. -/
theorem empty_key_point_set_fails (ukp : UseKeyPoints) (selectedIndices : Option (List Nat))
    (predLength : Nat) (hukp : ukp ≠ UseKeyPoints.no)
    (hzero : selectedIndices = none ∨ selectedIndices = some [] ∨
      (∃ l, selectedIndices = some l ∧
        (if ukp.containsSpecified then l.length else strideSampleCount predLength) = 0)) :
    ∃ msg, generateKeyPointCheck ukp selectedIndices predLength = Except.error msg := by
  rcases hzero with h | h | ⟨l, hl, hK⟩
  · subst h
    refine ⟨"selected_indices is None or empty", ?_⟩
    simp [generateKeyPointCheck, hukp]
  · subst h
    refine ⟨"selected_indices is None or empty", ?_⟩
    simp [generateKeyPointCheck, hukp]
  · subst hl
    by_cases hlen : l.length = 0
    · refine ⟨"selected_indices is None or empty", ?_⟩
      simp [generateKeyPointCheck, hukp, hlen]
    · refine ⟨"future points not enough to sample", ?_⟩
      simp only [generateKeyPointCheck, if_neg hukp, if_neg hlen, hK]
      rfl

/-- Witness for `empty_key_point_set_fails`: the stride rule over a
19-step future samples zero key points. -/
theorem empty_key_point_set_fails_witness :
    UseKeyPoints.evenInterval ≠ UseKeyPoints.no ∧
    ∃ msg, generateKeyPointCheck UseKeyPoints.evenInterval (some [0, 1]) 19 =
      Except.error msg :=
  ⟨by decide,
   empty_key_point_set_fails UseKeyPoints.evenInterval (some [0, 1]) 19 (by decide)
     (Or.inr (Or.inr ⟨[0, 1], rfl, by decide⟩))⟩

/-!
## Per-row candidate selection in the generation loop

From model.py lines 293-299:

    if self.k > 1:
        key_points_logit, pred_logits = self.key_points_decoder.generate_keypoints(...)
        selected_key_point = key_points_logit.reshape(batch_size, self.k, -1)[
            torch.arange(batch_size), pred_logits.argmax(dim=-1).reshape(-1), :]...
        key_points_logit = selected_key_point
    else:
        key_points_logit, _ = self.key_points_decoder.generate_keypoints(...)

`torch.argmax` returns, per row, the index of the first maximal score.
-/

/-- Scan keeping the running (index, value) best; a later entry replaces
the best only when strictly greater, matching `torch.argmax`'s
first-maximum tie-breaking. -/
def argmaxPair (p : Nat × ℚ) (i : Nat) : List ℚ → Nat × ℚ
  | [] => p
  | x :: xs => if p.2 < x then argmaxPair (i, x) (i + 1) xs else argmaxPair p (i + 1) xs

/-- `torch.argmax` over one row of scores (first maximal index; 0 on an
empty row). -/
def argmaxIdx : List ℚ → Nat
  | [] => 0
  | x :: xs => (argmaxPair (0, x) 1 xs).1

theorem argmaxPair_spec (xs : List ℚ) (p : Nat × ℚ) (i : Nat) :
    p.2 ≤ (argmaxPair p i xs).2 ∧
    (∀ m, m < xs.length → xs.getD m 0 ≤ (argmaxPair p i xs).2) ∧
    (argmaxPair p i xs = p ∨
      ∃ m, m < xs.length ∧ argmaxPair p i xs = (i + m, xs.getD m 0) ∧
        p.2 < (argmaxPair p i xs).2 ∧
        ∀ n, n < m → xs.getD n 0 < (argmaxPair p i xs).2) := by
  induction xs generalizing p i with
  | nil => exact ⟨le_refl _, fun m hm => absurd hm (by simp), Or.inl rfl⟩
  | cons x xs ih =>
    by_cases hx : p.2 < x
    · simp only [argmaxPair, if_pos hx]
      obtain ⟨ha, hb, hc⟩ := ih (i, x) (i + 1)
      refine ⟨le_trans (le_of_lt hx) ha, ?_, ?_⟩
      · intro m hm
        match m with
        | 0 => exact ha
        | m + 1 => exact hb m (by simpa using hm)
      · rcases hc with hc | ⟨m, hm, he, hgt, hfirst⟩
        · refine Or.inr ⟨0, by simp, ?_, ?_, ?_⟩
          · rw [hc]; rfl
          · rw [hc]; exact hx
          · intro n hn; omega
        · refine Or.inr ⟨m + 1, by simpa using hm, ?_, lt_trans hx hgt, ?_⟩
          · rw [he]; congr 1; omega
          · intro n hn
            match n with
            | 0 => exact lt_of_lt_of_le hgt (le_refl _)
            | n + 1 => exact hfirst n (by omega)
    · simp only [argmaxPair, if_neg hx]
      obtain ⟨ha, hb, hc⟩ := ih p (i + 1)
      refine ⟨ha, ?_, ?_⟩
      · intro m hm
        match m with
        | 0 => exact le_trans (le_of_not_lt hx) ha
        | m + 1 => exact hb m (by simpa using hm)
      · rcases hc with hc | ⟨m, hm, he, hgt, hfirst⟩
        · exact Or.inl hc
        · refine Or.inr ⟨m + 1, by simpa using hm, ?_, hgt, ?_⟩
          · rw [he]; congr 1; omega
          · intro n hn
            match n with
            | 0 => exact lt_of_le_of_lt (le_of_not_lt hx) hgt
            | n + 1 => exact hfirst n (by omega)

theorem argmaxIdx_spec (l : List ℚ) (hl : l ≠ []) :
    argmaxIdx l < l.length ∧
    (∀ m, m < l.length → l.getD m 0 ≤ l.getD (argmaxIdx l) 0) ∧
    (∀ n, n < argmaxIdx l → l.getD n 0 < l.getD (argmaxIdx l) 0) := by
  match l with
  | [] => exact absurd rfl hl
  | x :: xs =>
    obtain ⟨ha, hb, hc⟩ := argmaxPair_spec xs (0, x) 1
    rcases hc with hc | ⟨m, hm, he, hgt, hfirst⟩
    · have hidx : argmaxIdx (x :: xs) = 0 := by simp [argmaxIdx, hc]
      have hval : (argmaxPair (0, x) 1 xs).2 = x := by rw [hc]
      refine ⟨by simp [hidx], ?_, by simp [hidx]⟩
      intro m hm
      match m with
      | 0 => simp [hidx]
      | m + 1 =>
        have := hb m (by simpa using hm)
        rw [hval] at this
        simpa [hidx] using this
    · have hidx : argmaxIdx (x :: xs) = 1 + m := by simp [argmaxIdx, he]
      have hval : (x :: xs).getD (argmaxIdx (x :: xs)) 0 = (argmaxPair (0, x) 1 xs).2 := by
        rw [hidx, he, Nat.add_comm 1 m]
        simp
      refine ⟨?_, ?_, ?_⟩
      · rw [hidx]; simp only [List.length_cons]; omega
      · intro n hn
        rw [hval]
        match n with
        | 0 => exact le_of_lt hgt
        | n + 1 => exact hb n (by simpa using hn)
      · intro n hn
        rw [hval]
        rw [hidx] at hn
        match n with
        | 0 => exact hgt
        | n + 1 => exact hfirst n (by omega)

/-- The candidate picked by the controller from the decoder's `k`
candidates and scores for one batch row (model.py lines 293-299): the
arg-max-scored candidate when `k > 1`, candidate 0 otherwise. -/
def selectLogit (k : Nat) (cands : List (List ℚ)) (scores : List ℚ) : List ℚ :=
  if 1 < k then cands.getD (argmaxIdx scores) [] else cands.getD 0 []

/-- C8: with `k > 1` the controller picks, per batch row, the candidate at
the first-maximal score index (an index below `k` whose score is ≥ every
score and > every earlier score); with `k = 1` the score-selection branch
is skipped and the single returned candidate is used directly. -/
theorem candidate_selection_argmax (k : Nat) (cands : List (List ℚ)) (scores : List ℚ)
    (hs : scores.length = k) :
    (1 < k →
      selectLogit k cands scores = cands.getD (argmaxIdx scores) [] ∧
      argmaxIdx scores < k ∧
      (∀ m, m < k → scores.getD m 0 ≤ scores.getD (argmaxIdx scores) 0) ∧
      (∀ n, n < argmaxIdx scores → scores.getD n 0 < scores.getD (argmaxIdx scores) 0)) ∧
    (k = 1 → selectLogit k cands scores = cands.getD 0 []) := by
  constructor
  · intro hk
    have hne : scores ≠ [] := by
      intro h
      rw [h] at hs
      simp at hs
      omega
    obtain ⟨h1, h2, h3⟩ := argmaxIdx_spec scores hne
    exact ⟨if_pos hk, by omega, fun m hm => h2 m (by omega), h3⟩
  · intro hk
    exact if_neg (by omega)

/-- Witness for `candidate_selection_argmax` at `k = 3` with concrete
candidates and scores (arg-max index 1). -/
theorem candidate_selection_argmax_witness :
    ([(5 : ℚ), 9, 9] : List ℚ).length = 3 ∧
    ((1 < 3 →
      selectLogit 3 [[1, 1], [2, 2], [3, 3]] [(5 : ℚ), 9, 9] =
        [[(1 : ℚ), 1], [2, 2], [3, 3]].getD (argmaxIdx [(5 : ℚ), 9, 9]) [] ∧
      argmaxIdx [(5 : ℚ), 9, 9] < 3 ∧
      (∀ m, m < 3 → ([(5 : ℚ), 9, 9] : List ℚ).getD m 0 ≤
        ([(5 : ℚ), 9, 9] : List ℚ).getD (argmaxIdx [(5 : ℚ), 9, 9]) 0) ∧
      (∀ n, n < argmaxIdx [(5 : ℚ), 9, 9] → ([(5 : ℚ), 9, 9] : List ℚ).getD n 0 <
        ([(5 : ℚ), 9, 9] : List ℚ).getD (argmaxIdx [(5 : ℚ), 9, 9]) 0)) ∧
    (3 = 1 → selectLogit 3 [[1, 1], [2, 2], [3, 3]] [(5 : ℚ), 9, 9] =
      [[(1 : ℚ), 1], [2, 2], [3, 3]].getD 0 [])) :=
  ⟨by decide,
   candidate_selection_argmax 3 [[1, 1], [2, 2], [3, 3]] [(5 : ℚ), 9, 9] (by decide)⟩

/-!
## The autoregressive key-point fill loop

From `TrajectoryGPT.generate` (model.py lines 277-341).  The batch is a
list of rows, each row a position-indexed embedding valuation.  The
backbone and the key-point decoder are the external collaborators: the
backbone maps the batch of length-`L` prefixes to a batch of length-`L`
hidden-state sequences, the decoder maps a batch of single hidden states
to, per row, `k` candidate points with `k` scores.

    input_embeds[:, kp_start_index:kp_start_index + key_points_num, :] = future_key_embeds_dummy
    for i in range(key_points_num):
        input_embeds_current = input_embeds[:, :kp_start_index + i, :]
        ...
        transformer_output = self.transformer(inputs_embeds=input_embeds_current, ...)
        future_key_point_hidden_state = transformer_outputs_hidden_state[:, kp_start_index + i - 1, :]...
        key_points_logit, ... = self.key_points_decoder.generate_keypoints(future_key_point_hidden_state)
        ...
        pred_key_point = torch.zeros((batch_size, 1, 4), ...)
        ...
        key_point_embed = self.encoder.action_m_embed(pred_key_point)...
        input_embeds[:, kp_start_index + i, :] = key_point_embed[:, 0, :]
        pred_key_points_during_generate.append(...)
    key_points_logits = torch.cat(pred_key_points_during_generate, dim=1)...
-/

/-- The causal prefix `row[:L]` handed to the backbone. -/
def rowSlice {E : Type} (r : Nat → E) (L : Nat) : List E := (List.range L).map r

/-- `pred_key_point = torch.zeros((b, 1, 4)); pred_key_point[:, 0, :] =
key_points_logit[:, 0, :]` (all four components under `predict_yaw`,
only x and y otherwise). -/
def materializePoint (predictYaw : Bool) (c : List ℚ) : Pt4 :=
  if predictYaw then (c.getD 0 0, c.getD 1 0, c.getD 2 0, c.getD 3 0)
  else (c.getD 0 0, c.getD 1 0, 0, 0)

/-- The per-step entry appended to `pred_key_points_during_generate`:
the 4-component point under `predict_yaw`, its x-y prefix otherwise. -/
def outPoint (predictYaw : Bool) (p : Pt4) : List ℚ :=
  if predictYaw then [p.1, p.2.1, p.2.2.1, p.2.2.2] else [p.1, p.2.1]

/-- Static configuration and collaborators of the generation loop. -/
structure GenCfg (E : Type) where
  backbone : List (List E) → List (List E)
  kpDecoder : List E → List (List (List ℚ) × List ℚ)
  k : Nat
  predictYaw : Bool
  embedPt : Pt4 → E
  kpStart : Nat
  dfltE : E

/-- One loop step's committed points, per batch row: slice the causal
prefixes `[:kp_start_index + i]`, run the backbone, gather the hidden
state at index `kp_start_index + i - 1` of each row, decode, select a
candidate per row, and materialize the concrete point. -/
def stepPoints {E : Type} (cfg : GenCfg E) (rows : List (Nat → E)) (i : Nat) : List Pt4 :=
  (cfg.kpDecoder
      ((cfg.backbone (rows.map (fun r => rowSlice r (cfg.kpStart + i)))).map
        (fun h => h.getD (cfg.kpStart + i - 1) cfg.dfltE))).map
    (fun cs => materializePoint cfg.predictYaw (selectLogit cfg.k cs.1 cs.2))

/-- One loop step: write each row's fresh key-point embedding at absolute
index `kp_start_index + i` and append the predicted point to each row's
accumulator. -/
def genStep {E : Type} (cfg : GenCfg E) (st : List (Nat → E) × List (List (List ℚ)))
    (i : Nat) : List (Nat → E) × List (List (List ℚ)) :=
  (List.zipWith (fun r p => Function.update r (cfg.kpStart + i) (cfg.embedPt p))
      st.1 (stepPoints cfg st.1 i),
   List.zipWith (fun a p => a ++ [outPoint cfg.predictYaw p]) st.2 (stepPoints cfg st.1 i))

/-- The loop `for i in range(n)` over `genStep`. -/
def genLoop {E : Type} (cfg : GenCfg E) (st0 : List (Nat → E) × List (List (List ℚ))) :
    Nat → List (Nat → E) × List (List (List ℚ))
  | 0 => st0
  | n + 1 => genStep cfg (genLoop cfg st0 n) n

/-- The dummy pre-fill
`input_embeds[:, kp_start_index:kp_start_index+K, :] = future_key_embeds_dummy`
(the embedding of the all-zero point) applied to one row. -/
def rowInit {E : Type} (cfg : GenCfg E) (K : Nat) (r : Nat → E) : Nat → E :=
  fun pos => if cfg.kpStart ≤ pos ∧ pos < cfg.kpStart + K then cfg.embedPt (0, 0, 0, 0) else r pos

/-- Loop entry state: dummy-filled rows, empty per-row accumulators. -/
def genInit {E : Type} (cfg : GenCfg E) (rows : List (Nat → E)) (K : Nat) :
    List (Nat → E) × List (List (List ℚ)) :=
  (rows.map (rowInit cfg K), rows.map (fun _ => []))

/-- The whole `K`-step key-point generation. -/
def generateKeyPoints {E : Type} (cfg : GenCfg E) (rows : List (Nat → E)) (K : Nat) :
    List (Nat → E) × List (List (List ℚ)) :=
  genLoop cfg (genInit cfg rows K) K

/-- The batch of points committed at step `j` of the generation. -/
def stepPointAt {E : Type} (cfg : GenCfg E) (rows : List (Nat → E)) (K j : Nat) : List Pt4 :=
  stepPoints cfg (genLoop cfg (genInit cfg rows K) j).1 j

/-- Rows with every position at or after `L` blanked out: what step `i`
of the loop can legitimately see of the sequence. -/
def truncRows {E : Type} (cfg : GenCfg E) (L : Nat) (rs : List (Nat → E)) : List (Nat → E) :=
  rs.map (fun r p => if p < L then r p else cfg.dfltE)

theorem getD_map_of_lt {α β : Type} (f : α → β) (l : List α) (b : Nat) (hb : b < l.length)
    (d : β) (dx : α) : (l.map f).getD b d = f (l.getD b dx) := by
  induction l generalizing b with
  | nil => simp at hb
  | cons a l ih =>
    match b with
    | 0 => simp
    | b + 1 =>
      simp only [List.map_cons, List.getD_cons_succ]
      exact ih b (by simpa using hb)

theorem getD_of_len_le {α : Type} (l : List α) (b : Nat) (h : l.length ≤ b) (d : α) :
    l.getD b d = d := by
  induction l generalizing b with
  | nil => simp [List.getD]
  | cons a l ih =>
    match b with
    | 0 => simp at h
    | b + 1 =>
      simp only [List.getD_cons_succ]
      exact ih b (by simpa using h)

theorem getD_zipWith_of_lt {α β γ : Type} (f : α → β → γ) (l1 : List α) (l2 : List β)
    (b : Nat) (h1 : b < l1.length) (h2 : b < l2.length) (d : γ) (d1 : α) (d2 : β) :
    (List.zipWith f l1 l2).getD b d = f (l1.getD b d1) (l2.getD b d2) := by
  induction l1 generalizing l2 b with
  | nil => simp at h1
  | cons a l1 ih =>
    match l2, b with
    | [], _ => simp at h2
    | x :: l2, 0 => simp
    | x :: l2, b + 1 =>
      simp only [List.zipWith_cons_cons, List.getD_cons_succ]
      exact ih l2 b (by simpa using h1) (by simpa using h2)

theorem zipWith_map_same {α β γ δ : Type} (f : β → γ → δ) (g : α → β) (h : α → γ)
    (l : List α) : List.zipWith f (l.map g) (l.map h) = l.map (fun x => f (g x) (h x)) := by
  induction l with
  | nil => rfl
  | cons a l ih => simp [ih]

theorem stepPoints_length {E : Type} (cfg : GenCfg E)
    (hB : ∀ x, (cfg.backbone x).length = x.length)
    (hD : ∀ x, (cfg.kpDecoder x).length = x.length)
    (rows : List (Nat → E)) (i : Nat) :
    (stepPoints cfg rows i).length = rows.length := by
  simp [stepPoints, hB, hD]

theorem genLoop_length {E : Type} (cfg : GenCfg E)
    (hB : ∀ x, (cfg.backbone x).length = x.length)
    (hD : ∀ x, (cfg.kpDecoder x).length = x.length)
    (st0 : List (Nat → E) × List (List (List ℚ))) (h12 : st0.2.length = st0.1.length)
    (n : Nat) :
    (genLoop cfg st0 n).1.length = st0.1.length ∧
    (genLoop cfg st0 n).2.length = st0.1.length := by
  induction n with
  | zero => exact ⟨rfl, h12⟩
  | succ n ih =>
    obtain ⟨ih1, ih2⟩ := ih
    constructor <;>
      simp [genLoop, genStep, List.length_zipWith, stepPoints_length cfg hB hD, ih1, ih2] <;>
      omega

theorem genLoop_val_stable {E : Type} (cfg : GenCfg E)
    (hB : ∀ x, (cfg.backbone x).length = x.length)
    (hD : ∀ x, (cfg.kpDecoder x).length = x.length)
    (st0 : List (Nat → E) × List (List (List ℚ))) (h12 : st0.2.length = st0.1.length)
    (n p : Nat) (hp : p < cfg.kpStart ∨ cfg.kpStart + n ≤ p) (b : Nat) (df : Nat → E) :
    ((genLoop cfg st0 n).1.getD b df) p = (st0.1.getD b df) p := by
  induction n with
  | zero => rfl
  | succ n ih =>
    have hlen := (genLoop_length cfg hB hD st0 h12 n).1
    by_cases hb : b < st0.1.length
    · have hbp : b < (genLoop cfg st0 n).1.length := by omega
      have hsp : b < (stepPoints cfg (genLoop cfg st0 n).1 n).length := by
        rw [stepPoints_length cfg hB hD]
        omega
      show ((genStep cfg (genLoop cfg st0 n) n).1.getD b df) p = (st0.1.getD b df) p
      rw [genStep, getD_zipWith_of_lt _ _ _ b hbp hsp df df (0, 0, 0, 0)]
      rw [Function.update_noteq (by omega : p ≠ cfg.kpStart + n)]
      exact ih (by omega)
    · have hlen1 : (genLoop cfg st0 (n + 1)).1.length = st0.1.length :=
        (genLoop_length cfg hB hD st0 h12 (n + 1)).1
      rw [getD_of_len_le _ b (by omega), getD_of_len_le _ b (by omega)]

theorem genLoop_val_written {E : Type} (cfg : GenCfg E)
    (hB : ∀ x, (cfg.backbone x).length = x.length)
    (hD : ∀ x, (cfg.kpDecoder x).length = x.length)
    (st0 : List (Nat → E) × List (List (List ℚ))) (h12 : st0.2.length = st0.1.length)
    (i n : Nat) (hin : i < n) (b : Nat) (hb : b < st0.1.length) (df : Nat → E) (dp : Pt4) :
    ((genLoop cfg st0 n).1.getD b df) (cfg.kpStart + i) =
      cfg.embedPt ((stepPoints cfg (genLoop cfg st0 i).1 i).getD b dp) := by
  induction n with
  | zero => omega
  | succ n ih =>
    have hlen := (genLoop_length cfg hB hD st0 h12 n).1
    have hbp : b < (genLoop cfg st0 n).1.length := by omega
    have hsp : b < (stepPoints cfg (genLoop cfg st0 n).1 n).length := by
      rw [stepPoints_length cfg hB hD]
      omega
    show ((genStep cfg (genLoop cfg st0 n) n).1.getD b df) (cfg.kpStart + i) = _
    rw [genStep, getD_zipWith_of_lt _ _ _ b hbp hsp df df dp]
    rcases Nat.lt_or_ge i n with h | h
    · rw [Function.update_noteq (by omega : cfg.kpStart + i ≠ cfg.kpStart + n)]
      exact ih h
    · have hi : i = n := by omega
      subst hi
      rw [Function.update_same]

theorem genLoop_preds {E : Type} (cfg : GenCfg E)
    (hB : ∀ x, (cfg.backbone x).length = x.length)
    (hD : ∀ x, (cfg.kpDecoder x).length = x.length)
    (rows : List (Nat → E)) (K n b : Nat) (hb : b < rows.length) (dp : Pt4) :
    ((genLoop cfg (genInit cfg rows K) n).2.getD b []) =
      (List.range n).map
        (fun j => outPoint cfg.predictYaw ((stepPointAt cfg rows K j).getD b dp)) := by
  have h12 : (genInit cfg rows K).2.length = (genInit cfg rows K).1.length := by
    simp [genInit]
  have hlen0 : (genInit cfg rows K).1.length = rows.length := by simp [genInit]
  induction n with
  | zero =>
    simp only [genLoop, genInit, List.range_zero, List.map_nil]
    rw [getD_map_of_lt _ _ b hb [] (fun _ => cfg.dfltE)]
  | succ n ih =>
    have hlen1 := (genLoop_length cfg hB hD (genInit cfg rows K) h12 n).1
    have hlen2 := (genLoop_length cfg hB hD (genInit cfg rows K) h12 n).2
    have hbp : b < (genLoop cfg (genInit cfg rows K) n).2.length := by omega
    have hsp : b < (stepPoints cfg (genLoop cfg (genInit cfg rows K) n).1 n).length := by
      rw [stepPoints_length cfg hB hD]
      omega
    show ((genStep cfg (genLoop cfg (genInit cfg rows K) n) n).2.getD b []) = _
    rw [genStep, getD_zipWith_of_lt _ _ _ b hbp hsp [] [] dp, ih, List.range_succ,
      List.map_append, List.map_cons, List.map_nil]
    rfl

theorem stepPoints_truncate {E : Type} (cfg : GenCfg E) (rs : List (Nat → E)) (i : Nat) :
    stepPoints cfg rs i = stepPoints cfg (truncRows cfg (cfg.kpStart + i) rs) i := by
  have hmap : rs.map (fun r => rowSlice r (cfg.kpStart + i)) =
      (truncRows cfg (cfg.kpStart + i) rs).map (fun r => rowSlice r (cfg.kpStart + i)) := by
    simp only [truncRows, List.map_map]
    refine List.map_congr_left ?_
    intro r _
    simp only [Function.comp, rowSlice]
    refine List.map_congr_left ?_
    intro p hp
    rw [if_pos (List.mem_range.mp hp)]
  simp only [stepPoints, hmap]

/-- C1: the `K`-step key-point fill loop.  For every fill step `i < K`
and batch row `b`:
(1) the points committed at step `i` are computed from the backbone run on
exactly the causal prefixes `input_embeds[:, :kp_start_index+i, :]` of the
current buffer (truncating every position at or after
`kp_start_index + i` leaves them unchanged), via the decoder applied to
the hidden state at index `kp_start_index + i - 1` of that prefix;
(2) the loop writes the fresh embedding of that point back at absolute
index `kp_start_index + i`, and it is still there after step `K - 1`;
(3) the returned accumulator holds the `K` predicted points in slot
order. -/
theorem keypoint_fill_loop (E : Type) (cfg : GenCfg E) (rows : List (Nat → E)) (K : Nat)
    (hB : ∀ x, (cfg.backbone x).length = x.length)
    (hD : ∀ x, (cfg.kpDecoder x).length = x.length)
    (b : Nat) (hb : b < rows.length) (i : Nat) (hi : i < K) (df : Nat → E) (dp : Pt4) :
    stepPointAt cfg rows K i =
      (cfg.kpDecoder
        ((cfg.backbone
            ((genLoop cfg (genInit cfg rows K) i).1.map
              (fun r => rowSlice r (cfg.kpStart + i)))).map
          (fun h => h.getD (cfg.kpStart + i - 1) cfg.dfltE))).map
        (fun cs => materializePoint cfg.predictYaw (selectLogit cfg.k cs.1 cs.2)) ∧
    stepPointAt cfg rows K i =
      stepPoints cfg
        (truncRows cfg (cfg.kpStart + i) (genLoop cfg (genInit cfg rows K) i).1) i ∧
    ((generateKeyPoints cfg rows K).1.getD b df) (cfg.kpStart + i) =
      cfg.embedPt ((stepPointAt cfg rows K i).getD b dp) ∧
    ((generateKeyPoints cfg rows K).2.getD b []) =
      (List.range K).map
        (fun j => outPoint cfg.predictYaw ((stepPointAt cfg rows K j).getD b dp)) := by
  have h12 : (genInit cfg rows K).2.length = (genInit cfg rows K).1.length := by
    simp [genInit]
  have hlen0 : (genInit cfg rows K).1.length = rows.length := by simp [genInit]
  refine ⟨rfl, stepPoints_truncate cfg _ i, ?_, ?_⟩
  · exact genLoop_val_written cfg hB hD (genInit cfg rows K) h12 i K hi b (by omega) df dp
  · exact genLoop_preds cfg hB hD rows K K b hb dp

/-- Witness for `keypoint_fill_loop`: one batch row, `K = 1`,
`kp_start_index = 1`, identity backbone, a decoder returning a single
candidate built from the gathered hidden state. -/
theorem keypoint_fill_loop_witness :
    (∀ x : List (List ℚ), (List.length x : Nat) = x.length) ∧
    (0 : Nat) < 1 ∧ (0 : Nat) < 1 ∧
    (stepPointAt ⟨fun xs => xs, fun g => g.map (fun h => ([[h, h]], [(1 : ℚ)])), 1, false,
        fun p => p.1, 1, 0⟩ [fun _ => (5 : ℚ)] 1 0 =
      (((⟨fun xs => xs, fun g => g.map (fun h => ([[h, h]], [(1 : ℚ)])), 1, false,
          fun p => p.1, 1, 0⟩ : GenCfg ℚ)).kpDecoder
        (((genLoop ⟨fun xs => xs, fun g => g.map (fun h => ([[h, h]], [(1 : ℚ)])), 1, false,
            fun p => p.1, 1, 0⟩
            (genInit ⟨fun xs => xs, fun g => g.map (fun h => ([[h, h]], [(1 : ℚ)])), 1, false,
              fun p => p.1, 1, 0⟩ [fun _ => (5 : ℚ)] 1) 0).1.map
          (fun r => rowSlice r (1 + 0))).map
          (fun h => h.getD (1 + 0 - 1) 0))).map
        (fun cs => materializePoint false (selectLogit 1 cs.1 cs.2)) ∧
    stepPointAt ⟨fun xs => xs, fun g => g.map (fun h => ([[h, h]], [(1 : ℚ)])), 1, false,
        fun p => p.1, 1, 0⟩ [fun _ => (5 : ℚ)] 1 0 =
      stepPoints ⟨fun xs => xs, fun g => g.map (fun h => ([[h, h]], [(1 : ℚ)])), 1, false,
          fun p => p.1, 1, 0⟩
        (truncRows ⟨fun xs => xs, fun g => g.map (fun h => ([[h, h]], [(1 : ℚ)])), 1, false,
            fun p => p.1, 1, 0⟩ (1 + 0)
          (genLoop ⟨fun xs => xs, fun g => g.map (fun h => ([[h, h]], [(1 : ℚ)])), 1, false,
              fun p => p.1, 1, 0⟩
            (genInit ⟨fun xs => xs, fun g => g.map (fun h => ([[h, h]], [(1 : ℚ)])), 1, false,
              fun p => p.1, 1, 0⟩ [fun _ => (5 : ℚ)] 1) 0).1) 0 ∧
    ((generateKeyPoints ⟨fun xs => xs, fun g => g.map (fun h => ([[h, h]], [(1 : ℚ)])), 1,
        false, fun p => p.1, 1, 0⟩ [fun _ => (5 : ℚ)] 1).1.getD 0 (fun _ => 0)) (1 + 0) =
      ((stepPointAt ⟨fun xs => xs, fun g => g.map (fun h => ([[h, h]], [(1 : ℚ)])), 1, false,
          fun p => p.1, 1, 0⟩ [fun _ => (5 : ℚ)] 1 0).getD 0 (0, 0, 0, 0)).1 ∧
    ((generateKeyPoints ⟨fun xs => xs, fun g => g.map (fun h => ([[h, h]], [(1 : ℚ)])), 1,
        false, fun p => p.1, 1, 0⟩ [fun _ => (5 : ℚ)] 1).2.getD 0 []) =
      (List.range 1).map
        (fun j => outPoint false
          ((stepPointAt ⟨fun xs => xs, fun g => g.map (fun h => ([[h, h]], [(1 : ℚ)])), 1,
              false, fun p => p.1, 1, 0⟩ [fun _ => (5 : ℚ)] 1 j).getD 0 (0, 0, 0, 0)))) :=
  ⟨fun _ => rfl, Nat.one_pos, Nat.one_pos,
   keypoint_fill_loop ℚ
     ⟨fun xs => xs, fun g => g.map (fun h => ([[h, h]], [(1 : ℚ)])), 1, false,
       fun p => p.1, 1, 0⟩
     [fun _ => (5 : ℚ)] 1 (fun _ => rfl) (fun x => by simp) 0 (by simp) 0 Nat.one_pos
     (fun _ => 0) (0, 0, 0, 0)⟩

/-!
## Batch independence of the fill loop

Every tensor operation of the loop body acts row-wise; the backbone and
decoder are assumed row-wise (the causal-attention collaborators process
batch rows independently).  Under that assumption the batched loop is the
per-row loop mapped over the batch.
-/

/-- The point committed for a single row at step `i`, with per-row
collaborators `rowBB` and `rowDec`. -/
def rowStepPt {E : Type} (cfg : GenCfg E) (rowBB : List E → List E)
    (rowDec : E → List (List ℚ) × List ℚ) (r : Nat → E) (i : Nat) : Pt4 :=
  materializePoint cfg.predictYaw
    (selectLogit cfg.k
      (rowDec ((rowBB (rowSlice r (cfg.kpStart + i))).getD (cfg.kpStart + i - 1) cfg.dfltE)).1
      (rowDec ((rowBB (rowSlice r (cfg.kpStart + i))).getD (cfg.kpStart + i - 1) cfg.dfltE)).2)

/-- The fill loop restricted to one row. -/
def rowLoop {E : Type} (cfg : GenCfg E) (rowBB : List E → List E)
    (rowDec : E → List (List ℚ) × List ℚ) (r0 : Nat → E) : Nat → (Nat → E) × List (List ℚ)
  | 0 => (r0, [])
  | n + 1 =>
    (Function.update (rowLoop cfg rowBB rowDec r0 n).1 (cfg.kpStart + n)
      (cfg.embedPt (rowStepPt cfg rowBB rowDec (rowLoop cfg rowBB rowDec r0 n).1 n)),
     (rowLoop cfg rowBB rowDec r0 n).2 ++
      [outPoint cfg.predictYaw (rowStepPt cfg rowBB rowDec (rowLoop cfg rowBB rowDec r0 n).1 n)])

theorem stepPoints_rowwise {E : Type} (cfg : GenCfg E) (rowBB : List E → List E)
    (rowDec : E → List (List ℚ) × List ℚ)
    (hB : ∀ x, cfg.backbone x = x.map rowBB)
    (hD : ∀ x, cfg.kpDecoder x = x.map rowDec)
    (rs : List (Nat → E)) (i : Nat) :
    stepPoints cfg rs i = rs.map (fun r => rowStepPt cfg rowBB rowDec r i) := by
  simp [stepPoints, hB, hD, List.map_map, Function.comp, rowStepPt]

theorem genLoop_rowwise {E : Type} (cfg : GenCfg E) (rowBB : List E → List E)
    (rowDec : E → List (List ℚ) × List ℚ)
    (hB : ∀ x, cfg.backbone x = x.map rowBB)
    (hD : ∀ x, cfg.kpDecoder x = x.map rowDec)
    (rows : List (Nat → E)) (K n : Nat) :
    genLoop cfg (genInit cfg rows K) n =
      (rows.map (fun r => (rowLoop cfg rowBB rowDec (rowInit cfg K r) n).1),
       rows.map (fun r => (rowLoop cfg rowBB rowDec (rowInit cfg K r) n).2)) := by
  induction n with
  | zero => rfl
  | succ n ih =>
    show genStep cfg (genLoop cfg (genInit cfg rows K) n) n = _
    rw [ih, genStep]
    simp only [stepPoints_rowwise cfg rowBB rowDec hB hD, List.map_map, Function.comp,
      zipWith_map_same]
    rfl

/-- C7: with row-wise backbone and decoder, running the `K`-step fill loop
on a batch produces at row `b` exactly the result of running the loop on
the singleton batch holding only that row: the predicted key points and
the final embedding buffer of a row do not depend on the other rows. -/
theorem batch_row_independence {E : Type} (cfg : GenCfg E) (rowBB : List E → List E)
    (rowDec : E → List (List ℚ) × List ℚ)
    (hB : ∀ x, cfg.backbone x = x.map rowBB)
    (hD : ∀ x, cfg.kpDecoder x = x.map rowDec)
    (rows : List (Nat → E)) (K b : Nat) (hb : b < rows.length) (df : Nat → E) :
    ((generateKeyPoints cfg rows K).2.getD b []) =
      ((generateKeyPoints cfg [rows.getD b df] K).2.getD 0 []) ∧
    ((generateKeyPoints cfg rows K).1.getD b df) =
      ((generateKeyPoints cfg [rows.getD b df] K).1.getD 0 df) := by
  have hall := genLoop_rowwise cfg rowBB rowDec hB hD rows K K
  have hone := genLoop_rowwise cfg rowBB rowDec hB hD [rows.getD b df] K K
  constructor
  · show (genLoop cfg (genInit cfg rows K) K).2.getD b [] =
      (genLoop cfg (genInit cfg [rows.getD b df] K) K).2.getD 0 []
    rw [hall, hone]
    simp only [List.map_cons, List.map_nil, List.getD_cons_zero]
    exact getD_map_of_lt _ rows b hb [] df
  · show (genLoop cfg (genInit cfg rows K) K).1.getD b df =
      (genLoop cfg (genInit cfg [rows.getD b df] K) K).1.getD 0 df
    rw [hall, hone]
    simp only [List.map_cons, List.map_nil, List.getD_cons_zero]
    exact getD_map_of_lt _ rows b hb df df

/-- Witness for `batch_row_independence`: a 2-row batch, `K = 2`,
`kp_start_index = 1`, identity per-row backbone, a decoder returning a
single candidate built from the gathered hidden state; row 1 of the
batched run equals the singleton run on row 1. -/
theorem batch_row_independence_witness :
    (∀ x : List (List ℚ), (fun xs : List (List ℚ) => xs) x = x.map (fun l => l)) ∧
    (1 : Nat) < 2 ∧
    (((generateKeyPoints ⟨fun xs => xs, fun g => g.map (fun h => ([[h, h]], [(1 : ℚ)])), 1,
        false, fun p => p.1, 1, 0⟩ [fun _ => (3 : ℚ), fun _ => (4 : ℚ)] 2).2.getD 1 []) =
      ((generateKeyPoints ⟨fun xs => xs, fun g => g.map (fun h => ([[h, h]], [(1 : ℚ)])), 1,
        false, fun p => p.1, 1, 0⟩
        [[fun _ => (3 : ℚ), fun _ => (4 : ℚ)].getD 1 (fun _ => 0)] 2).2.getD 0 []) ∧
    ((generateKeyPoints ⟨fun xs => xs, fun g => g.map (fun h => ([[h, h]], [(1 : ℚ)])), 1,
        false, fun p => p.1, 1, 0⟩ [fun _ => (3 : ℚ), fun _ => (4 : ℚ)] 2).1.getD 1
          (fun _ => 0)) =
      ((generateKeyPoints ⟨fun xs => xs, fun g => g.map (fun h => ([[h, h]], [(1 : ℚ)])), 1,
        false, fun p => p.1, 1, 0⟩
        [[fun _ => (3 : ℚ), fun _ => (4 : ℚ)].getD 1 (fun _ => 0)] 2).1.getD 0
          (fun _ => 0))) :=
  ⟨fun x => (List.map_id x).symm,
   by decide,
   batch_row_independence
     ⟨fun xs => xs, fun g => g.map (fun h => ([[h, h]], [(1 : ℚ)])), 1, false,
       fun p => p.1, 1, 0⟩
     (fun l => l) (fun h => ([[h, h]], [(1 : ℚ)]))
     (fun x => (List.map_id x).symm) (fun _ => rfl)
     [fun _ => (3 : ℚ), fun _ => (4 : ℚ)] 2 1 (by decide) (fun _ => 0)⟩

/-!
## Proposal-cluster classification target

From `NuplanRasterizeEncoder.get_proposal_cluster_embedding`
(lines 160-191):

    traj_gt = trajectory_label[:, :, [0, 1]]...
    diff = expanded_candidate_trajectory - traj_gt
    distances = torch.sqrt(torch.sum(diff ** 2, dim=-1))
    distances = torch.mean(distances, dim=-1)          # ADE per candidate
    gt_index = torch.argmin(gt_l2_distance, dim=-1)

Trajectory points are pairs of reals; `torch.argmin` returns the first
minimal index.
-/

/-- Pointwise Euclidean distance between two planar points. -/
noncomputable def ptDist (p q : ℝ × ℝ) : ℝ :=
  Real.sqrt ((p.1 - q.1) ^ 2 + (p.2 - q.2) ^ 2)

/-- Average displacement error of one candidate against the ground truth:
mean of the pointwise Euclidean distances. -/
noncomputable def candidateADE (cand gt : List (ℝ × ℝ)) : ℝ :=
  (List.zipWith ptDist cand gt).sum / (List.zipWith ptDist cand gt).length

/-- The per-candidate ADE row `distances` of the proposal stage. -/
noncomputable def proposalDistances (bank : List (List (ℝ × ℝ))) (gt : List (ℝ × ℝ)) :
    List ℝ := bank.map (fun c => candidateADE c gt)

/-- Scan keeping the running (index, value) best; a later entry replaces
the best only when strictly smaller, matching `torch.argmin`'s
first-minimum tie-breaking. -/
noncomputable def argminPair (p : Nat × ℝ) (i : Nat) : List ℝ → Nat × ℝ
  | [] => p
  | x :: xs => if x < p.2 then argminPair (i, x) (i + 1) xs else argminPair p (i + 1) xs

/-- `torch.argmin` over one row (first minimal index; 0 on an empty row). -/
noncomputable def argminIdx : List ℝ → Nat
  | [] => 0
  | x :: xs => (argminPair (0, x) 1 xs).1

/-- `gt_index = torch.argmin(gt_l2_distance, dim=-1)` of the proposal
stage, for one batch row. -/
noncomputable def proposalTargetIndex (bank : List (List (ℝ × ℝ))) (gt : List (ℝ × ℝ)) :
    Nat := argminIdx (proposalDistances bank gt)

theorem argminPair_spec (xs : List ℝ) (p : Nat × ℝ) (i : Nat) :
    (argminPair p i xs).2 ≤ p.2 ∧
    (∀ m, m < xs.length → (argminPair p i xs).2 ≤ xs.getD m 0) ∧
    (argminPair p i xs = p ∨
      ∃ m, m < xs.length ∧ argminPair p i xs = (i + m, xs.getD m 0)) := by
  induction xs generalizing p i with
  | nil => exact ⟨le_refl _, fun m hm => absurd hm (by simp), Or.inl rfl⟩
  | cons x xs ih =>
    by_cases hx : x < p.2
    · simp only [argminPair, if_pos hx]
      obtain ⟨ha, hb, hc⟩ := ih (i, x) (i + 1)
      refine ⟨le_trans ha (le_of_lt hx), ?_, ?_⟩
      · intro m hm
        match m with
        | 0 => exact ha
        | m + 1 => exact hb m (by simpa using hm)
      · rcases hc with hc | ⟨m, hm, he⟩
        · refine Or.inr ⟨0, by simp, ?_⟩
          rw [hc]
          rfl
        · refine Or.inr ⟨m + 1, by simpa using hm, ?_⟩
          rw [he]
          congr 1
          omega
    · simp only [argminPair, if_neg hx]
      obtain ⟨ha, hb, hc⟩ := ih p (i + 1)
      refine ⟨ha, ?_, ?_⟩
      · intro m hm
        match m with
        | 0 => exact le_trans ha (le_of_not_lt hx)
        | m + 1 => exact hb m (by simpa using hm)
      · rcases hc with hc | ⟨m, hm, he⟩
        · exact Or.inl hc
        · refine Or.inr ⟨m + 1, by simpa using hm, ?_⟩
          rw [he]
          congr 1
          omega

theorem argminIdx_spec (l : List ℝ) (hl : l ≠ []) :
    argminIdx l < l.length ∧
    (∀ m, m < l.length → l.getD (argminIdx l) 0 ≤ l.getD m 0) := by
  match l with
  | [] => exact absurd rfl hl
  | x :: xs =>
    obtain ⟨ha, hb, hc⟩ := argminPair_spec xs (0, x) 1
    have hval : (x :: xs).getD (argminIdx (x :: xs)) 0 = (argminPair (0, x) 1 xs).2 := by
      rcases hc with hc | ⟨m, hm, he⟩
      · simp [argminIdx, hc]
      · have hidx : argminIdx (x :: xs) = 1 + m := by simp [argminIdx, he]
        rw [hidx, he, Nat.add_comm 1 m]
        simp
    have hbound : argminIdx (x :: xs) < (x :: xs).length := by
      rcases hc with hc | ⟨m, hm, he⟩
      · simp [argminIdx, hc]
      · have hidx : argminIdx (x :: xs) = 1 + m := by simp [argminIdx, he]
        rw [hidx]
        simp only [List.length_cons]
        omega
    refine ⟨hbound, ?_⟩
    intro m hm
    rw [hval]
    match m with
    | 0 => exact ha
    | m + 1 => exact hb m (by simpa using hm)

theorem zipWith_ptDist_sum_nonneg (cand gt : List (ℝ × ℝ)) :
    0 ≤ (List.zipWith ptDist cand gt).sum := by
  induction cand generalizing gt with
  | nil => simp
  | cons c cand ih =>
    match gt with
    | [] => simp
    | g :: gt =>
      simp only [List.zipWith_cons_cons, List.sum_cons]
      exact add_nonneg (Real.sqrt_nonneg _) (ih gt)

theorem candidateADE_nonneg (cand gt : List (ℝ × ℝ)) : 0 ≤ candidateADE cand gt :=
  div_nonneg (zipWith_ptDist_sum_nonneg cand gt) (Nat.cast_nonneg _)

theorem ptDist_self (p : ℝ × ℝ) : ptDist p p = 0 := by
  simp [ptDist]

theorem candidateADE_self (gt : List (ℝ × ℝ)) : candidateADE gt gt = 0 := by
  have hsum : (List.zipWith ptDist gt gt).sum = 0 := by
    induction gt with
    | nil => simp
    | cons g gt ih => simp [ptDist_self, ih]
  unfold candidateADE
  rw [hsum, zero_div]

/-- C6: the proposal stage computes, for every candidate in the bank, the
mean pointwise Euclidean distance (ADE) to the ground-truth trajectory and
selects the arg-min candidate as the classification target; if the ground
truth equals candidate `j` exactly (and no other candidate is at distance
0), candidate `j` is selected and its distance is 0. -/
theorem proposal_argmin_exact_match (bank : List (List (ℝ × ℝ))) (gt : List (ℝ × ℝ))
    (j : Nat) (hj : j < bank.length) (hgt : bank.getD j [] = gt)
    (huniq : ∀ m, m < bank.length → m ≠ j → candidateADE (bank.getD m []) gt ≠ 0) :
    (proposalDistances bank gt).getD j 0 = 0 ∧
    proposalTargetIndex bank gt = j := by
  have hlen : (proposalDistances bank gt).length = bank.length := by
    simp [proposalDistances]
  have hgetD : ∀ m, m < bank.length →
      (proposalDistances bank gt).getD m 0 = candidateADE (bank.getD m []) gt := by
    intro m hm
    simp only [proposalDistances]
    exact getD_map_of_lt _ bank m hm 0 []
  have hdj : (proposalDistances bank gt).getD j 0 = 0 := by
    rw [hgetD j hj, hgt]
    exact candidateADE_self gt
  have hne : proposalDistances bank gt ≠ [] := by
    intro h
    rw [h] at hlen
    simp at hlen
    omega
  obtain ⟨hbound, hmin⟩ := argminIdx_spec (proposalDistances bank gt) hne
  have hbound2 : argminIdx (proposalDistances bank gt) < bank.length := by omega
  have hr : (proposalDistances bank gt).getD (argminIdx (proposalDistances bank gt)) 0 = 0 := by
    have h1 := hmin j (by omega)
    rw [hdj] at h1
    have h2 : 0 ≤ (proposalDistances bank gt).getD (argminIdx (proposalDistances bank gt)) 0 := by
      rw [hgetD _ hbound2]
      exact candidateADE_nonneg _ gt
    exact le_antisymm h1 h2
  refine ⟨hdj, ?_⟩
  by_contra hne2
  rw [hgetD _ hbound2] at hr
  exact huniq (argminIdx (proposalDistances bank gt)) hbound2 hne2 hr

/-- Witness for `proposal_argmin_exact_match`: bank of two one-point
candidates, ground truth identical to candidate 1 (candidate 0 at
distance 1). -/
theorem proposal_argmin_exact_match_witness :
    (1 : Nat) < 2 ∧
    ([[((1 : ℝ), 0)], [((0 : ℝ), 0)]].getD 1 [] = [((0 : ℝ), 0)]) ∧
    (∀ m, m < 2 → m ≠ 1 →
      candidateADE ([[((1 : ℝ), 0)], [((0 : ℝ), 0)]].getD m []) [((0 : ℝ), 0)] ≠ 0) ∧
    ((proposalDistances [[((1 : ℝ), 0)], [((0 : ℝ), 0)]] [((0 : ℝ), 0)]).getD 1 0 = 0 ∧
    proposalTargetIndex [[((1 : ℝ), 0)], [((0 : ℝ), 0)]] [((0 : ℝ), 0)] = 1) := by
  have hADE0 : candidateADE [((1 : ℝ), 0)] [((0 : ℝ), 0)] = 1 := by
    simp only [candidateADE, ptDist, List.zipWith_cons_cons, List.zipWith_nil_right,
      List.sum_cons, List.sum_nil, List.length_cons, List.length_nil]
    norm_num [Real.sqrt_one]
  have huniq : ∀ m, m < 2 → m ≠ 1 →
      candidateADE ([[((1 : ℝ), 0)], [((0 : ℝ), 0)]].getD m []) [((0 : ℝ), 0)] ≠ 0 := by
    intro m hm hne
    have hm0 : m = 0 := by omega
    subst hm0
    simp only [List.getD_cons_zero]
    rw [hADE0]
    norm_num
  exact ⟨by norm_num, rfl, huniq,
    proposal_argmin_exact_match [[((1 : ℝ), 0)], [((0 : ℝ), 0)]] [((0 : ℝ), 0)] 1
      (by norm_num) rfl huniq⟩

end STR
